import Mathlib

/-!
# Verification of the searchine indexing and retrieval core

Shallow embedding of the Rust sources of the searchine repository
(crates under src/: index, tokenize, fingertips, documents), together with
proofs and refutations of the frozen specification claims.

Modelling conventions:
* Rust HashMap values are modelled as Mathlib Finmap (an unordered finite
  key-to-value map, exactly the observable content of a HashMap); where a
  claim or an operation depends on the iteration order of a concrete map we
  use AList (an association list with nodup keys) instead, so that the entry
  enumeration is explicit.
* Machine integers (u32, usize) are modelled as Nat.  None of the claims
  under study exercises wrap-around behaviour; the usize-to-u32 casts in
  the sources are documented at the definitions they concern.
* f64 appears in two roles.  The scoring formulas (calc_tf, calc_idf) are
  modelled over the exact rationals / reals, abstracting the rounding of
  f64 arithmetic.  For the document-score container, whose claim is about
  comparisons and NaN-induced panics, f64 is modelled as a rational or NaN
  (F64 below), which captures exactly the partial order used by the code.
* Fallible operations (io::Result, unwrap) are modelled with Option:
  none models the error or panic.
* DocumentId is u32 (documents crate), Token is the integer token id
  representation (u32); both are modelled as Nat.  SystemTime and PathBuf
  are opaque to the claims and are modelled as Nat and String.
-/

abbrev DocumentId := ℕ

abbrev Token := ℕ

abbrev DocPath := String

abbrev Time := ℕ

/-! ## Collection (src/index/src/collection/entry.rs, col.rs) -/

/-- Rust struct CollectionEntry: document id plus last-modified time. -/
structure CollectionEntry where
  document_id : DocumentId
  modified : Time
deriving DecidableEq, Repr

/-- Rust struct Collection: a root directory and a HashMap from path to
entry, modelled as a Finmap. -/
structure Collection where
  root_dir : DocPath
  index : Finmap fun _ : DocPath => CollectionEntry
deriving DecidableEq

/-- Collection::default(). -/
def Collection.empty : Collection := ⟨"", ∅⟩

/-- Number of entries of the underlying map (self.index.len()). -/
def Collection.size (c : Collection) : ℕ := c.index.entries.card

/-- Collection::contains_path. -/
def Collection.contains_path (c : Collection) (p : DocPath) : Bool :=
  decide (p ∈ c.index)

/-- Collection::insert.  The io call document_path.metadata()?.modified() is
an external collaborator and is passed in as stat (none models the io
error).  If the path is unknown, the new entry receives document id
self.index.len() (cast usize to u32 in the source) and the stat time; if
the path is already present nothing happens and no stat is performed. -/
def Collection.insert (c : Collection) (p : DocPath) (stat : Option Time) :
    Option Collection :=
  if p ∈ c.index then some c
  else
    match stat with
    | none => none
    | some modified =>
        let next_id := c.index.entries.card
        some { c with index := c.index.insert p ⟨next_id, modified⟩ }

/-- Collection::get_document_id. -/
def Collection.get_document_id (c : Collection) (p : DocPath) : Option DocumentId :=
  (c.index.lookup p).map CollectionEntry.document_id

/-- Collection::get_last_modified. -/
def Collection.get_last_modified (c : Collection) (p : DocPath) : Option Time :=
  (c.index.lookup p).map CollectionEntry.modified

/-- Collection::remove: HashMap::remove returns the removed entry (if any)
and the map without it. -/
def Collection.remove (c : Collection) (p : DocPath) :
    Option CollectionEntry × Collection :=
  (c.index.lookup p, { c with index := c.index.erase p })

/-- One step of a single-run mutation sequence on a Collection: an insert
(with the stat succeeding, as it does for a readable file) or a remove. -/
inductive CollectionOp where
  | ins : DocPath → Time → CollectionOp
  | rem : DocPath → CollectionOp
deriving DecidableEq, Repr

/-- Apply one operation.  For ins the stat succeeds, so insert returns
some; getD makes the function total (the default branch is unreachable). -/
def Collection.applyOp (c : Collection) : CollectionOp → Collection
  | .ins p t => (c.insert p (some t)).getD c
  | .rem p => (c.remove p).2

/-- Run a sequence of operations from the empty collection. -/
def Collection.run (ops : List CollectionOp) : Collection :=
  ops.foldl Collection.applyOp Collection.empty

/-- Run a sequence of successful inserts from the empty collection. -/
def Collection.runInserts (ps : List (DocPath × Time)) : Collection :=
  (ps.map fun pt => CollectionOp.ins pt.1 pt.2).foldl Collection.applyOp Collection.empty

example : (Collection.run [.ins "a" 0, .ins "b" 0]).get_document_id "b" = some 1 := by
  decide

example :
    (Collection.run [.ins "a" 0, .ins "b" 0, .rem "a", .ins "c" 0]).get_document_id "c"
      = some 1 := by
  decide

/-! ## Frequency postings (src/index/src/postings/freq.rs)

Rust stores a postings list as HashSet of FrequencyPosting where both
PartialEq and Hash of FrequencyPosting are defined solely by doc_id.
Consequently the set never holds two postings with the same doc_id, and it
is modelled as a Finmap from doc_id to frequency.  HashSet::insert keeps
the element already present when an equal one (same doc_id) is inserted. -/

/-- Rust struct FrequencyPosting. -/
structure FrequencyPosting where
  doc_id : DocumentId
  frequency : ℕ
deriving DecidableEq, Repr

/-- Rust struct FrequencyPostingsList: HashSet of FrequencyPosting keyed by
doc_id, modelled as a Finmap from doc_id to frequency. -/
structure FrequencyPostingsList where
  inner : Finmap fun _ : DocumentId => ℕ
deriving DecidableEq

/-- FrequencyPostingsList::new. -/
def FrequencyPostingsList.new : FrequencyPostingsList := ⟨∅⟩

/-- PostingsList::add = self.inner.insert(posting): for a HashSet this is a
no-op when an element with the same doc_id is present. -/
def FrequencyPostingsList.add (l : FrequencyPostingsList) (p : FrequencyPosting) :
    FrequencyPostingsList :=
  if p.doc_id ∈ l.inner then l else ⟨l.inner.insert p.doc_id p.frequency⟩

/-- PostingsList::remove = retain of the postings whose doc_id differs. -/
def FrequencyPostingsList.remove (l : FrequencyPostingsList) (d : DocumentId) :
    FrequencyPostingsList :=
  ⟨l.inner.erase d⟩

/-- PostingsList::get = iter().find by doc_id; by the set invariant the
found posting is the unique one with that doc_id. -/
def FrequencyPostingsList.get (l : FrequencyPostingsList) (d : DocumentId) :
    Option FrequencyPosting :=
  (l.inner.lookup d).map fun f => ⟨d, f⟩

/-- PostingsList::len. -/
def FrequencyPostingsList.len (l : FrequencyPostingsList) : ℕ :=
  l.inner.entries.card

/-- PostingsList::doc_ids, a Vec of the doc_ids of the postings; the Vec
order is the arbitrary HashSet iteration order, so the content is the key
set. -/
def FrequencyPostingsList.doc_ids (l : FrequencyPostingsList) : Finset DocumentId :=
  l.inner.keys

/-! ## Per-document frequency index (src/index/src/doc/freq.rs) -/

/-- Rust struct DocumentFrequencyIndex: document id, running total of
terms, and the HashMap from token to count.  The map is modelled as an
AList because FrequencyInvertedIndex::index iterates over its entries. -/
structure DocumentFrequencyIndex where
  id : DocumentId
  n_terms : ℕ
  index : AList fun _ : Token => ℕ

/-- DocumentFrequencyIndex::new. -/
def DocumentFrequencyIndex.new (id : DocumentId) : DocumentFrequencyIndex :=
  ⟨id, 0, ∅⟩

/-- DocumentFrequencyIndex::add_token: increment the total and the count of
the token (initializing it to 1 when absent). -/
def DocumentFrequencyIndex.add_token (D : DocumentFrequencyIndex) (t : Token) :
    DocumentFrequencyIndex :=
  { D with
    n_terms := D.n_terms + 1
    index :=
      match D.index.lookup t with
      | some c => D.index.insert t (c + 1)
      | none => D.index.insert t 1 }

/-- DocumentFrequencyIndex::index_tokens. -/
def DocumentFrequencyIndex.index_tokens (D : DocumentFrequencyIndex)
    (tokens : List Token) : DocumentFrequencyIndex :=
  tokens.foldl DocumentFrequencyIndex.add_token D

/-- DocumentFrequencyIndex::term_count. -/
def DocumentFrequencyIndex.term_count (D : DocumentFrequencyIndex) (t : Token) : ℕ :=
  (D.index.lookup t).getD 0

/-! ## Per-document total-term table (src/index/src/doc/term.rs)

The snapshot under src/ defines DocumentTermsCounterBuilder::insert_doc_terms
(a plain HashMap::insert) and DocumentTermsCounter::get_doc_terms and
::n_docs, while FrequencyIndex (inverted/freq.rs) calls insert_doc_terms and
n_terms directly on DocumentTermsCounter; those two methods are resolved
here to the builder's insert and to get_doc_terms, which is what spec
section 4.5 prescribes (record total_terms of doc_id; n_terms of doc_id is
0 if unknown). -/

/-- Rust struct DocumentTermsCounter: HashMap from doc_id to its total
number of terms. -/
structure DocumentTermsCounter where
  inner : Finmap fun _ : DocumentId => ℕ
deriving DecidableEq

/-- Modelled from the spec: DocumentTermsCounter::insert_doc_terms is
declared on the builder in the src snapshot but called on the counter by
FrequencyIndex::index; it is a plain HashMap::insert, per spec section 4.5
(record total_terms of doc_id). -/
def DocumentTermsCounter.insert_doc_terms (c : DocumentTermsCounter)
    (doc_id : DocumentId) (n_terms : ℕ) : DocumentTermsCounter :=
  ⟨c.inner.insert doc_id n_terms⟩

/-- DocumentTermsCounter::get_doc_terms: the recorded total, or 0. -/
def DocumentTermsCounter.get_doc_terms (c : DocumentTermsCounter)
    (doc_id : DocumentId) : ℕ :=
  (c.inner.lookup doc_id).getD 0

/-- Modelled from the spec: DocumentTermsCounter::n_terms as called by
FrequencyIndex is get_doc_terms (spec section 4.5: n_terms of doc_id is the
total terms in that document, 0 if unknown). -/
def DocumentTermsCounter.n_terms (c : DocumentTermsCounter) (doc_id : DocumentId) : ℕ :=
  c.get_doc_terms doc_id

/-- DocumentTermsCounter::n_docs = self.inner.len(). -/
def DocumentTermsCounter.n_docs (c : DocumentTermsCounter) : ℕ :=
  c.inner.entries.card

/-! ## Inverted frequency index (src/index/src/inverted/freq.rs) -/

/-- Rust struct FrequencyInvertedIndex: HashMap from token to postings
list. -/
structure FrequencyInvertedIndex where
  inner : Finmap fun _ : Token => FrequencyPostingsList
deriving DecidableEq

/-- One iteration of the loop in FrequencyInvertedIndex::index: insert the
posting (doc_id, freq) for one (token, freq) entry of the document index,
creating the postings list when the token is new. -/
def FrequencyInvertedIndex.indexEntry (doc_id : DocumentId)
    (inv : FrequencyInvertedIndex) (e : Sigma fun _ : Token => ℕ) :
    FrequencyInvertedIndex :=
  let posting : FrequencyPosting := ⟨doc_id, e.2⟩
  match inv.inner.lookup e.1 with
  | some postings_list => ⟨inv.inner.insert e.1 (postings_list.add posting)⟩
  | none => ⟨inv.inner.insert e.1 (FrequencyPostingsList.new.add posting)⟩

/-- FrequencyInvertedIndex::index: fold every (token, freq) entry of the
document index into the map.  The Rust for-loop enumerates the document's
HashMap in an arbitrary order; the entries of the AList stand for one such
enumeration (every enumeration of the same entries yields the same result,
because each entry updates a different token key). -/
def FrequencyInvertedIndex.index (inv : FrequencyInvertedIndex)
    (doc_index : DocumentFrequencyIndex) : FrequencyInvertedIndex :=
  doc_index.index.entries.foldl (FrequencyInvertedIndex.indexEntry doc_index.id) inv

/-- Rust struct FrequencyIndex: the inverted index plus the per-document
total-term table. -/
structure FrequencyIndex where
  inverted_index : FrequencyInvertedIndex
  doc_terms_counter : DocumentTermsCounter
deriving DecidableEq

/-- FrequencyIndex::new. -/
def FrequencyIndex.new : FrequencyIndex := ⟨⟨∅⟩, ⟨∅⟩⟩

/-- FrequencyIndex::index: record the document's total term count, then
fold the document index into the inverted index. -/
def FrequencyIndex.index (F : FrequencyIndex) (doc_index : DocumentFrequencyIndex) :
    FrequencyIndex :=
  { inverted_index := F.inverted_index.index doc_index
    doc_terms_counter :=
      F.doc_terms_counter.insert_doc_terms doc_index.id doc_index.n_terms }

/-- Index::n_docs for FrequencyIndex. -/
def FrequencyIndex.n_docs (F : FrequencyIndex) : ℕ :=
  F.doc_terms_counter.n_docs

/-- Index::doc_ids_containing for FrequencyIndex: the doc_ids of the
token's postings list, or the empty collection when the token is unseen. -/
def FrequencyIndex.doc_ids_containing (F : FrequencyIndex) (term : Token) :
    Finset DocumentId :=
  match F.inverted_index.inner.lookup term with
  | some postings_list => postings_list.doc_ids
  | none => ∅

/-- Index::n_docs_containing for FrequencyIndex. -/
def FrequencyIndex.n_docs_containing (F : FrequencyIndex) (term : Token) : ℕ :=
  (F.inverted_index.inner.lookup term).elim 0 FrequencyPostingsList.len

/-- Index::n_terms for FrequencyIndex. -/
def FrequencyIndex.n_terms (F : FrequencyIndex) (doc_id : DocumentId) : ℕ :=
  F.doc_terms_counter.n_terms doc_id

/-- Index::term_frequency for FrequencyIndex: the source unwraps the token
lookup, then unwraps get(doc_id) on the postings list, then reads the
frequency; none models a panic of either unwrap. -/
def FrequencyIndex.term_frequency (F : FrequencyIndex) (doc_id : DocumentId)
    (term : Token) : Option ℕ :=
  (F.inverted_index.inner.lookup term).bind fun postings_list =>
    (postings_list.get doc_id).map FrequencyPosting.frequency

/-- Build the frequency index of one document from its token stream, as the
indexing pipeline does (DocumentFrequencyIndex::new + index_tokens). -/
def DocumentFrequencyIndex.ofTokens (id : DocumentId) (tokens : List Token) :
    DocumentFrequencyIndex :=
  (DocumentFrequencyIndex.new id).index_tokens tokens

/-- The two reference documents of the system's own test
(src/index/src/inverted/freq.rs, commented test_frequency_indexing). -/
def exampleIndex : FrequencyIndex :=
  [DocumentFrequencyIndex.ofTokens 0 [1, 2, 3, 1, 4],
   DocumentFrequencyIndex.ofTokens 1 [1, 2, 5]].foldl FrequencyIndex.index
    FrequencyIndex.new

example : exampleIndex.n_docs = 2 := by decide
example : exampleIndex.n_docs_containing 1 = 2 := by decide
example : exampleIndex.n_terms 0 = 5 := by decide
example : exampleIndex.n_terms 1 = 3 := by decide
example : exampleIndex.term_frequency 0 1 = some 2 := by decide
example : exampleIndex.term_frequency 1 1 = some 1 := by decide

/-! ## Vocabulary encoder (src/tokenize/src/encode.rs) -/

/-- Rust struct Encoder: HashMap from token string to TokenId (u32). -/
structure Encoder where
  vocabulary : Finmap fun _ : String => ℕ
deriving DecidableEq

/-- Encoder::default(). -/
def Encoder.empty : Encoder := ⟨∅⟩

/-- The vocabulary size self.vocabulary.len(); the source casts it usize to
u32 when it becomes the next id. -/
def Encoder.size (e : Encoder) : ℕ := e.vocabulary.entries.card

/-- Encoder::encode: entry(token).or_insert(vocabulary.len()) — return the
existing id, or insert the current size as the id of the new token.  The
returned pair is (id, encoder after the call). -/
def Encoder.encode (e : Encoder) (token : String) : ℕ × Encoder :=
  let term_id := e.size
  match e.vocabulary.lookup token with
  | some id => (id, e)
  | none => (term_id, ⟨e.vocabulary.insert token term_id⟩)

/-- Encoder state after a sequence of encode calls starting from the
default encoder. -/
def Encoder.runEncode (tokens : List String) : Encoder :=
  tokens.foldl (fun e t => (e.encode t).2) Encoder.empty

example : (Encoder.runEncode ["i", "want", "it", "i", "got", "it"]).size = 4 := by
  decide

example :
    ((Encoder.runEncode ["i", "want"]).encode "it").1 = 2 := by decide

/-! ## Scoring metrics (src/index/src/score/metrics.rs)

The f64 arithmetic of the metrics is modelled exactly: calc_tf over the
rationals, calc_idf over the reals (f64::log(10.0) is ln x / ln 10, the
base-10 logarithm).  The rounding of f64 operations is abstracted away; the
branch structure is the source's. -/

/-- Rust fn calc_tf: 0 when the document has no terms, otherwise the count
divided by the total. -/
def calc_tf (t : ℕ) (d : ℕ) : ℚ :=
  if d = 0 then 0 else (t : ℚ) / (d : ℚ)

/-- Rust fn calc_idf: log10((n + 1) / (d + 1)) with the add-one smoothing
of both counts. -/
noncomputable def calc_idf (d : ℕ) (n : ℕ) : ℝ :=
  Real.logb 10 (((n : ℝ) + 1) / ((d : ℝ) + 1))

/-- Rust fn calc_tf_idf (over the rationals, matching calc_tf). -/
def calc_tf_idf (tf : ℚ) (idf : ℚ) : ℚ := tf * idf

/-! ## Document scores and top-n selection (src/fingertips/src/score/mod.rs)

DocumentsScores holds a HashMap from doc_id to an f64 score.  The claim
about get_top_n concerns only the order structure of f64: a non-NaN f64 is
modelled as a rational, NaN as the extra point on which partial_cmp
returns None.  get_top_n collects the entries into a Vec (here: the entry
list of an AList, standing for one arbitrary HashMap iteration order),
sorts it with sort_by(partial_cmp.unwrap().reverse()) and takes the first
n.  sort_by is a stable comparison sort; it is modelled as a stable
insertion sort in the Option monad, where none models the unwrap panic on
an incomparable (NaN) pair. -/

/-- A model of f64 for comparison purposes: an exact value or NaN. -/
inductive F64 where
  | val : ℚ → F64
  | nan : F64
deriving DecidableEq, Repr

/-- Comparison of scores as PartialOrd of f64: NaN compares to nothing. -/
def F64.pcmp : F64 → F64 → Option Ordering
  | .val x, .val y => some (compare x y)
  | _, _ => none

/-- Addition as f64: NaN propagates; finite addition is exact. -/
def F64.add : F64 → F64 → F64
  | .val x, .val y => .val (x + y)
  | _, _ => .nan

/-- Non-strict order on the non-NaN part of F64 (used only to state
sortedness; nothing relates NaN). -/
def F64.fle : F64 → F64 → Prop
  | .val x, .val y => x ≤ y
  | _, _ => False

instance : DecidablePred fun p : F64 × F64 => F64.fle p.1 p.2 := by
  intro p
  rcases p with ⟨a, b⟩
  cases a <;> cases b <;> simp [F64.fle] <;> infer_instance

/-- Rust struct DocumentsScores: HashMap from doc_id to f64 score, as an
AList so that the entry enumeration taken by get_top_n is explicit. -/
structure DocumentsScores where
  inner : AList fun _ : ℕ => F64

/-- DocumentsScores::new. -/
def DocumentsScores.new : DocumentsScores := ⟨∅⟩

/-- DocumentsScores::add_score: entry(doc_id).or_insert(0.0) += score. -/
def DocumentsScores.add_score (ds : DocumentsScores) (doc_id : ℕ) (score : F64) :
    DocumentsScores :=
  match ds.inner.lookup doc_id with
  | some s => ⟨ds.inner.insert doc_id (s.add score)⟩
  | none => ⟨ds.inner.insert doc_id ((F64.val 0).add score)⟩

/-- DocumentsScores::get_score. -/
def DocumentsScores.get_score (ds : DocumentsScores) (doc_id : ℕ) : F64 :=
  (ds.inner.lookup doc_id).getD (F64.val 0)

/-- The comparator a.1.partial_cmp(b.1).unwrap().reverse() of get_top_n,
with none for the unwrap panic (Ordering::reverse is Ordering.swap). -/
def cmpScoresRev (a b : ℕ × F64) : Option Ordering :=
  (a.2.pcmp b.2).map Ordering.swap

/-- Stable insertion of one element into a sorted list, in the Option
monad: none as soon as the comparator would panic.  An element is placed
before the first strictly greater element, after equal ones (stability). -/
def sortInsertOpt (cmp : α → α → Option Ordering) (x : α) : List α → Option (List α)
  | [] => some [x]
  | y :: ys =>
    match cmp x y with
    | none => none
    | some .lt => some (x :: y :: ys)
    | some _ => (sortInsertOpt cmp x ys).map fun zs => y :: zs

/-- Model of slice::sort_by with a panicking comparator: a stable
insertion sort in the Option monad.  For a total comparator this agrees
with any stable comparison sort, which is the contract of sort_by; none
models a panic of the comparator during the sort. -/
def sortByOpt (cmp : α → α → Option Ordering) (l : List α) : Option (List α) :=
  l.foldl (fun acc x => acc.bind (sortInsertOpt cmp x)) (some [])

/-- The entries of the score map as (doc_id, score) pairs, in the entry
order of the AList (one arbitrary HashMap iteration order). -/
def DocumentsScores.entriesList (ds : DocumentsScores) : List (ℕ × F64) :=
  ds.inner.entries.map fun e => (e.1, e.2)

/-- DocumentsScores::get_top_n: collect the entries, sort descending by
score with the panicking comparator, take the first top_n; none models the
panic inside the sort. -/
def DocumentsScores.get_top_n (ds : DocumentsScores) (top_n : ℕ) :
    Option (List (ℕ × F64)) :=
  (sortByOpt cmpScoresRev ds.entriesList).map fun sorted => sorted.take top_n

/-- A concrete two-document score table used to exercise get_top_n. -/
def exampleScores : DocumentsScores :=
  ⟨AList.insert 1 (F64.val 7) (AList.insert 0 (F64.val 5) ∅)⟩

example : exampleScores.get_top_n 1 = some [(1, .val 7)] := by decide

example :
    (DocumentsScores.mk
      (AList.insert 1 F64.nan (AList.insert 0 (F64.val 5) ∅))).get_top_n 2
      = none := by decide

/-- A two-document score table holding one NaN score. -/
def exampleNanScores : DocumentsScores :=
  ⟨AList.insert 1 F64.nan (AList.insert 0 (F64.val 5) ∅)⟩

/-! ## Invariant predicates used by the theorems -/

/-- The id invariant of an insert-only Collection: every recorded id is
below the size, ids are unique, and every id below the size is taken. -/
def Collection.GoodIds (c : Collection) : Prop :=
  (∀ p e, c.index.lookup p = some e → e.document_id < c.size) ∧
  (∀ p₁ p₂ e₁ e₂, c.index.lookup p₁ = some e₁ → c.index.lookup p₂ = some e₂ →
    e₁.document_id = e₂.document_id → p₁ = p₂) ∧
  (∀ id, id < c.size → ∃ p e, c.index.lookup p = some e ∧ e.document_id = id)

/-- The vocabulary invariant of spec section 3: every id is below the
size, no two strings share an id, every id below the size is taken. -/
def Encoder.GoodVocab (e : Encoder) : Prop :=
  (∀ s id, e.vocabulary.lookup s = some id → id < e.size) ∧
  (∀ s₁ s₂ id, e.vocabulary.lookup s₁ = some id → e.vocabulary.lookup s₂ = some id →
    s₁ = s₂) ∧
  (∀ id, id < e.size → ∃ s, e.vocabulary.lookup s = some id)

/-- Non-increasing-score relation over (doc_id, score) pairs: a scores at
least b. -/
def scoreGe (a b : ℕ × F64) : Prop := F64.fle b.2 a.2

/-- The invariant kept by the sort fold: a successfully built accumulator
either has at most one element or holds no NaN score (a NaN can only ever
be the very first element inserted, and the next insertion fails on it). -/
def NoNanOrShort (l : List (ℕ × F64)) : Prop :=
  l.length ≤ 1 ∨ ∀ p ∈ l, p.2 ≠ F64.nan

/-- The frequency recorded for document d under token t — the composition
of the two lookups performed by term_frequency, used to state the
indexing invariants. -/
def FrequencyInvertedIndex.postingFreq (inv : FrequencyInvertedIndex)
    (d : DocumentId) (t : Token) : Option ℕ :=
  (inv.inner.lookup t).bind fun postings_list => postings_list.inner.lookup d

/-- Sum of the per-token counts of a document index. -/
def DocumentFrequencyIndex.sumCounts (D : DocumentFrequencyIndex) : ℕ :=
  (D.index.entries.map fun e => e.2).sum


/-! ## Id-assignment invariant lemmas -/

theorem Collection.size_insertEntry (c : Collection) (p : DocPath)
    (e : CollectionEntry) (h : p ∉ c.index) :
    (Collection.mk c.root_dir (c.index.insert p e)).size = c.size + 1 := by
  simp [Collection.size, Finmap.insert_entries_of_neg h]

theorem Collection.goodIds_empty : Collection.empty.GoodIds := by
  refine ⟨?_, ?_, ?_⟩ <;> intro p
  · intro e h
    simp [Collection.empty] at h
  · intro p₂ e₁ e₂ h
    simp [Collection.empty] at h
  · intro h
    exact absurd h (Nat.not_lt_zero _)

theorem Collection.goodIds_applyIns (c : Collection) (p : DocPath) (t : Time)
    (hc : c.GoodIds) : (c.applyOp (.ins p t)).GoodIds := by
  obtain ⟨hlt, hinj, hsur⟩ := hc
  by_cases hp : p ∈ c.index
  · simpa [Collection.applyOp, Collection.insert, hp] using ⟨hlt, hinj, hsur⟩
  · have hins : c.applyOp (.ins p t)
        = Collection.mk c.root_dir (c.index.insert p ⟨c.size, t⟩) := by
      simp [Collection.applyOp, Collection.insert, hp, Collection.size]
    rw [hins]
    have hsize := Collection.size_insertEntry c p ⟨c.size, t⟩ hp
    refine ⟨?_, ?_, ?_⟩
    · intro q e h
      rw [hsize]
      rcases eq_or_ne q p with rfl | hqp
      · rw [Finmap.lookup_insert] at h
        cases h
        exact Nat.lt_succ_self _
      · rw [Finmap.lookup_insert_of_ne _ hqp] at h
        exact Nat.lt_succ_of_lt (hlt q e h)
    · intro p₁ p₂ e₁ e₂ h₁ h₂ hid
      rcases eq_or_ne p₁ p with rfl | h₁p
      · rcases eq_or_ne p₂ p₁ with rfl | h₂p
        · rfl
        · rw [Finmap.lookup_insert] at h₁
          rw [Finmap.lookup_insert_of_ne _ h₂p] at h₂
          cases h₁
          exact absurd (hid ▸ hlt p₂ e₂ h₂) (lt_irrefl _)
      · rw [Finmap.lookup_insert_of_ne _ h₁p] at h₁
        rcases eq_or_ne p₂ p with rfl | h₂p
        · rw [Finmap.lookup_insert] at h₂
          cases h₂
          exact absurd (hid ▸ hlt p₁ e₁ h₁) (lt_irrefl _)
        · rw [Finmap.lookup_insert_of_ne _ h₂p] at h₂
          exact hinj p₁ p₂ e₁ e₂ h₁ h₂ hid
    · intro id hid
      rw [hsize] at hid
      rcases Nat.lt_succ_iff_lt_or_eq.mp hid with hlt' | rfl
      · obtain ⟨q, e, hq, he⟩ := hsur id hlt'
        have hqp : q ≠ p := by
          intro h
          subst h
          exact hp (Finmap.mem_of_lookup_eq_some hq)
        exact ⟨q, e, by rw [Finmap.lookup_insert_of_ne _ hqp]; exact hq, he⟩
      · exact ⟨p, ⟨c.size, t⟩, Finmap.lookup_insert _, rfl⟩

theorem Collection.goodIds_runInserts (ps : List (DocPath × Time)) :
    (Collection.runInserts ps).GoodIds := by
  suffices h : ∀ (l : List (DocPath × Time)) (c : Collection), c.GoodIds →
      ((l.map fun pt => CollectionOp.ins pt.1 pt.2).foldl Collection.applyOp c).GoodIds by
    exact h ps Collection.empty Collection.goodIds_empty
  intro l
  induction l with
  | nil => intro c hc; exact hc
  | cons hd tl ih =>
      intro c hc
      exact ih _ (Collection.goodIds_applyIns c hd.1 hd.2 hc)

theorem Encoder.size_insert (e : Encoder) (s : String) (id : ℕ)
    (h : s ∉ e.vocabulary) :
    (Encoder.mk (e.vocabulary.insert s id)).size = e.size + 1 := by
  simp [Encoder.size, Finmap.insert_entries_of_neg h]

theorem Encoder.goodVocab_empty : Encoder.empty.GoodVocab := by
  refine ⟨?_, ?_, ?_⟩ <;> intro s
  · intro id h
    simp [Encoder.empty] at h
  · intro s₂ id h
    simp [Encoder.empty] at h
  · intro h
    exact absurd h (Nat.not_lt_zero _)

theorem Encoder.goodVocab_encode (e : Encoder) (t : String) (he : e.GoodVocab) :
    (e.encode t).2.GoodVocab := by
  obtain ⟨hlt, hinj, hsur⟩ := he
  cases hl : e.vocabulary.lookup t with
  | some id => simpa [Encoder.encode, hl] using ⟨hlt, hinj, hsur⟩
  | none =>
      have ht : t ∉ e.vocabulary := Finmap.lookup_eq_none.mp hl
      have henc : (e.encode t).2 = Encoder.mk (e.vocabulary.insert t e.size) := by
        simp [Encoder.encode, hl]
      rw [henc]
      have hsize := Encoder.size_insert e t e.size ht
      refine ⟨?_, ?_, ?_⟩
      · intro s id h
        rw [hsize]
        rcases eq_or_ne s t with rfl | hst
        · rw [Finmap.lookup_insert] at h
          cases h
          exact Nat.lt_succ_self _
        · rw [Finmap.lookup_insert_of_ne _ hst] at h
          exact Nat.lt_succ_of_lt (hlt s id h)
      · intro s₁ s₂ id h₁ h₂
        rcases eq_or_ne s₁ t with rfl | h₁t
        · rcases eq_or_ne s₂ s₁ with rfl | h₂t
          · rfl
          · rw [Finmap.lookup_insert] at h₁
            rw [Finmap.lookup_insert_of_ne _ h₂t] at h₂
            cases h₁
            exact absurd (hlt s₂ _ h₂) (lt_irrefl _)
        · rw [Finmap.lookup_insert_of_ne _ h₁t] at h₁
          rcases eq_or_ne s₂ t with rfl | h₂t
          · rw [Finmap.lookup_insert] at h₂
            cases h₂
            exact absurd (hlt s₁ _ h₁) (lt_irrefl _)
          · rw [Finmap.lookup_insert_of_ne _ h₂t] at h₂
            exact hinj s₁ s₂ id h₁ h₂
      · intro id hid
        rw [hsize] at hid
        rcases Nat.lt_succ_iff_lt_or_eq.mp hid with hlt' | rfl
        · obtain ⟨s, hs⟩ := hsur id hlt'
          have hst : s ≠ t := by
            intro h
            subst h
            rw [hl] at hs
            cases hs
          exact ⟨s, by rw [Finmap.lookup_insert_of_ne _ hst]; exact hs⟩
        · exact ⟨t, Finmap.lookup_insert _⟩

theorem Encoder.goodVocab_runEncode (ts : List String) :
    (Encoder.runEncode ts).GoodVocab := by
  suffices h : ∀ (l : List String) (e : Encoder), e.GoodVocab →
      (l.foldl (fun e t => (e.encode t).2) e).GoodVocab by
    exact h ts Encoder.empty Encoder.goodVocab_empty
  intro l
  induction l with
  | nil => intro e he; exact he
  | cons hd tl ih =>
      intro e he
      exact ih _ (Encoder.goodVocab_encode e hd he)

/-! ## Sort lemmas for Claim C10 -/

theorem sortInsertOpt_perm {cmp : α → α → Option Ordering} (x : α) :
    ∀ (ys l' : List α), sortInsertOpt cmp x ys = some l' → l'.Perm (x :: ys) := by
  intro ys
  induction ys with
  | nil =>
      intro l' h
      cases h
      exact List.Perm.refl _
  | cons y ys ih =>
      intro l' h
      unfold sortInsertOpt at h
      cases hc : cmp x y with
      | none => rw [hc] at h; cases h
      | some o =>
          rw [hc] at h
          cases o with
          | lt =>
              cases h
              exact List.Perm.refl _
          | eq =>
              obtain ⟨zs, hz, rfl⟩ := Option.map_eq_some'.mp h
              exact (List.Perm.cons y (ih zs hz)).trans (List.Perm.swap x y ys)
          | gt =>
              obtain ⟨zs, hz, rfl⟩ := Option.map_eq_some'.mp h
              exact (List.Perm.cons y (ih zs hz)).trans (List.Perm.swap x y ys)

theorem sortByOpt_go_none {cmp : α → α → Option Ordering} (l : List α) :
    l.foldl (fun acc x => acc.bind (sortInsertOpt cmp x)) none = none := by
  induction l with
  | nil => rfl
  | cons x l ih => exact ih

theorem sortByOpt_perm {cmp : α → α → Option Ordering} :
    ∀ (l acc s : List α),
      l.foldl (fun acc x => acc.bind (sortInsertOpt cmp x)) (some acc) = some s →
        s.Perm (acc ++ l) := by
  intro l
  induction l with
  | nil =>
      intro acc s h
      cases h
      rw [List.append_nil]
  | cons x l ih =>
      intro acc s h
      simp only [List.foldl_cons] at h
      have hb : (some acc).bind (sortInsertOpt cmp x) = sortInsertOpt cmp x acc := rfl
      rw [hb] at h
      cases hi : sortInsertOpt cmp x acc with
      | none =>
          rw [hi] at h
          rw [sortByOpt_go_none] at h
          cases h
      | some acc' =>
          rw [hi] at h
          have hperm := ih acc' s h
          have hacc : acc'.Perm (x :: acc) := sortInsertOpt_perm x acc acc' hi
          exact hperm.trans ((hacc.append_right l).trans List.perm_middle.symm)

theorem cmpScoresRev_total (a b : ℕ × F64) (ha : a.2 ≠ .nan) (hb : b.2 ≠ .nan) :
    ∃ o, cmpScoresRev a b = some o := by
  cases haa : a.2 with
  | nan => exact absurd haa ha
  | val qa =>
      cases hbb : b.2 with
      | nan => exact absurd hbb hb
      | val qb => exact ⟨(compare qa qb).swap, by simp [cmpScoresRev, F64.pcmp, haa, hbb]⟩

theorem cmpScoresRev_lt_iff (a b : ℕ × F64) (qa qb : ℚ) (ha : a.2 = .val qa)
    (hb : b.2 = .val qb) : cmpScoresRev a b = some .lt ↔ qb < qa := by
  have hcmp : cmpScoresRev a b = some (compare qa qb).swap := by
    simp [cmpScoresRev, F64.pcmp, ha, hb]
  rw [hcmp]
  constructor
  · intro h
    have h1 : (compare qa qb).swap = Ordering.lt := Option.some.inj h
    have h2 : compare qa qb = Ordering.gt := by
      cases hc : compare qa qb
      · rw [hc] at h1
        exact absurd h1 (by decide)
      · rw [hc] at h1
        exact absurd h1 (by decide)
      · rfl
    exact compare_gt_iff_gt.mp h2
  · intro h
    have h2 : compare qa qb = Ordering.gt := compare_gt_iff_gt.mpr h
    rw [h2]
    rfl

theorem F64.exists_val {a : F64} (h : a ≠ .nan) : ∃ q, a = .val q := by
  cases a with
  | val q => exact ⟨q, rfl⟩
  | nan => exact absurd rfl h

theorem F64.fle_val {q₁ q₂ : ℚ} : F64.fle (.val q₁) (.val q₂) ↔ q₁ ≤ q₂ := Iff.rfl

theorem cmpScoresRev_le (a b : ℕ × F64) (qa qb : ℚ) (ha : a.2 = .val qa)
    (hb : b.2 = .val qb) (h : cmpScoresRev a b ≠ some .lt) : qa ≤ qb :=
  le_of_not_lt fun hlt => h ((cmpScoresRev_lt_iff a b qa qb ha hb).mpr hlt)

theorem cmpScoresRev_some_imp (a b : ℕ × F64) (o : Ordering)
    (h : cmpScoresRev a b = some o) : a.2 ≠ .nan ∧ b.2 ≠ .nan := by
  cases ha : a.2 <;> cases hb : b.2 <;>
    simp [cmpScoresRev, F64.pcmp, ha, hb] at h ⊢

theorem sortInsertOpt_total (x : ℕ × F64) (hx : x.2 ≠ .nan) :
    ∀ (ys : List (ℕ × F64)), (∀ y ∈ ys, y.2 ≠ .nan) →
      ∃ l', sortInsertOpt cmpScoresRev x ys = some l' := by
  intro ys
  induction ys with
  | nil => exact fun _ => ⟨[x], rfl⟩
  | cons y ys ih =>
      intro hys
      obtain ⟨o, ho⟩ := cmpScoresRev_total x y hx (hys y (List.mem_cons_self y ys))
      obtain ⟨zs, hz⟩ := ih fun b hb => hys b (List.mem_cons_of_mem y hb)
      cases o with
      | lt => exact ⟨x :: y :: ys, by simp [sortInsertOpt, ho]⟩
      | eq => exact ⟨y :: zs, by simp [sortInsertOpt, ho, hz]⟩
      | gt => exact ⟨y :: zs, by simp [sortInsertOpt, ho, hz]⟩

theorem sortInsertOpt_sorted_cons (x y : ℕ × F64) (ys zs : List (ℕ × F64))
    (qx qy : ℚ) (hqx : x.2 = .val qx) (hqy : y.2 = .val qy)
    (hnot : cmpScoresRev x y ≠ some .lt)
    (hy_all : ∀ b ∈ ys, scoreGe y b)
    (hz : sortInsertOpt cmpScoresRev x ys = some zs)
    (hzs : zs.Sorted scoreGe) : (y :: zs).Sorted scoreGe := by
  rw [List.sorted_cons]
  refine ⟨?_, hzs⟩
  intro b hb
  have hperm := sortInsertOpt_perm x ys zs hz
  rcases List.mem_cons.mp (hperm.mem_iff.mp hb) with heq | hb2
  · have hle : qx ≤ qy := cmpScoresRev_le x y qx qy hqx hqy hnot
    show F64.fle b.2 y.2
    rw [heq, hqx, hqy]
    exact F64.fle_val.mpr hle
  · exact hy_all b hb2

theorem sortInsertOpt_sorted (x : ℕ × F64) (hx : x.2 ≠ .nan) :
    ∀ (ys l2 : List (ℕ × F64)), (∀ y ∈ ys, y.2 ≠ .nan) → ys.Sorted scoreGe →
      sortInsertOpt cmpScoresRev x ys = some l2 → l2.Sorted scoreGe := by
  obtain ⟨qx, hqx⟩ := F64.exists_val hx
  intro ys
  induction ys with
  | nil =>
      intro l2 _ _ h
      cases h
      simp
  | cons y ys ih =>
      intro l2 hnan hs h
      obtain ⟨qy, hqy⟩ := F64.exists_val (hnan y (List.mem_cons_self y ys))
      rw [List.sorted_cons] at hs
      obtain ⟨hy_all, hs_tail⟩ := hs
      have hnant : ∀ b ∈ ys, b.2 ≠ F64.nan := fun b hb =>
        hnan b (List.mem_cons_of_mem y hb)
      unfold sortInsertOpt at h
      cases hc : cmpScoresRev x y with
      | none => rw [hc] at h; cases h
      | some o =>
          rw [hc] at h
          cases o with
          | lt =>
              cases h
              have hyx : qy < qx := (cmpScoresRev_lt_iff x y qx qy hqx hqy).mp hc
              rw [List.sorted_cons]
              refine ⟨?_, List.sorted_cons.mpr ⟨hy_all, hs_tail⟩⟩
              intro b hb
              rcases List.mem_cons.mp hb with rfl | hb2
              · show F64.fle b.2 x.2
                rw [hqx, hqy]
                exact F64.fle_val.mpr (le_of_lt hyx)
              · obtain ⟨qb, hqb⟩ := F64.exists_val (hnant b hb2)
                have h1 : F64.fle b.2 y.2 := hy_all b hb2
                rw [hqb, hqy] at h1
                show F64.fle b.2 x.2
                rw [hqb, hqx]
                exact F64.fle_val.mpr (le_trans (F64.fle_val.mp h1) (le_of_lt hyx))
          | eq =>
              obtain ⟨zs, hz, rfl⟩ := Option.map_eq_some'.mp h
              exact sortInsertOpt_sorted_cons x y ys zs qx qy hqx hqy
                (by rw [hc]; decide) hy_all hz (ih zs hnant hs_tail hz)
          | gt =>
              obtain ⟨zs, hz, rfl⟩ := Option.map_eq_some'.mp h
              exact sortInsertOpt_sorted_cons x y ys zs qx qy hqx hqy
                (by rw [hc]; decide) hy_all hz (ih zs hnant hs_tail hz)

theorem sortInsertOpt_nan_head (x : ℕ × F64) (hx : x.2 = .nan) (y : ℕ × F64)
    (ys : List (ℕ × F64)) : sortInsertOpt cmpScoresRev x (y :: ys) = none := by
  have hc : cmpScoresRev x y = none := by
    cases hy : y.2 <;> simp [cmpScoresRev, F64.pcmp, hx, hy]
  unfold sortInsertOpt
  rw [hc]

theorem sortInsertOpt_noNan (x : ℕ × F64) (acc acc' : List (ℕ × F64))
    (h : sortInsertOpt cmpScoresRev x acc = some acc') (hacc : NoNanOrShort acc) :
    NoNanOrShort acc' := by
  cases acc with
  | nil =>
      cases h
      left
      simp
  | cons y ys =>
      have hx : x.2 ≠ F64.nan := by
        intro hx
        rw [sortInsertOpt_nan_head x hx y ys] at h
        cases h
      have hperm := sortInsertOpt_perm x (y :: ys) acc' h
      rcases hacc with hshort | hnone
      · have hys : ys = [] := by
          cases ys with
          | nil => rfl
          | cons z zs => simp at hshort
        subst hys
        have hy : y.2 ≠ F64.nan := by
          unfold sortInsertOpt at h
          cases hc : cmpScoresRev x y with
          | none => rw [hc] at h; cases h
          | some o => exact (cmpScoresRev_some_imp x y o hc).2
        right
        intro p hp
        rcases List.mem_cons.mp (hperm.mem_iff.mp hp) with heq | hp2
        · rw [heq]; exact hx
        · rw [List.mem_singleton.mp hp2]
          exact hy
      · right
        intro p hp
        rcases List.mem_cons.mp (hperm.mem_iff.mp hp) with heq | hp2
        · rw [heq]; exact hx
        · exact hnone p hp2

theorem sortByOpt_noNan :
    ∀ (l acc s : List (ℕ × F64)), NoNanOrShort acc →
      l.foldl (fun acc x => acc.bind (sortInsertOpt cmpScoresRev x)) (some acc)
        = some s → NoNanOrShort s := by
  intro l
  induction l with
  | nil =>
      intro acc s hacc h
      cases h
      exact hacc
  | cons x l ih =>
      intro acc s hacc h
      simp only [List.foldl_cons] at h
      have hb : (some acc).bind (sortInsertOpt cmpScoresRev x)
          = sortInsertOpt cmpScoresRev x acc := rfl
      rw [hb] at h
      cases hi : sortInsertOpt cmpScoresRev x acc with
      | none =>
          rw [hi] at h
          rw [sortByOpt_go_none] at h
          cases h
      | some acc' =>
          rw [hi] at h
          exact ih acc' s (sortInsertOpt_noNan x acc acc' hi hacc) h

theorem sortByOpt_total_sorted :
    ∀ (l acc : List (ℕ × F64)), (∀ p ∈ l, p.2 ≠ F64.nan) →
      (∀ p ∈ acc, p.2 ≠ F64.nan) → acc.Sorted scoreGe →
      ∃ s, l.foldl (fun acc x => acc.bind (sortInsertOpt cmpScoresRev x)) (some acc)
          = some s ∧ s.Sorted scoreGe := by
  intro l
  induction l with
  | nil =>
      intro acc _ _ hs
      exact ⟨acc, rfl, hs⟩
  | cons x l ih =>
      intro acc hl hacc hs
      have hx : x.2 ≠ F64.nan := hl x (List.mem_cons_self x l)
      obtain ⟨acc', hacc'⟩ := sortInsertOpt_total x hx acc hacc
      have hsorted' : acc'.Sorted scoreGe := sortInsertOpt_sorted x hx acc acc' hacc hs hacc'
      have hnan' : ∀ p ∈ acc', p.2 ≠ F64.nan := by
        intro p hp
        have hperm := sortInsertOpt_perm x acc acc' hacc'
        rcases List.mem_cons.mp (hperm.mem_iff.mp hp) with rfl | hp'
        · exact hx
        · exact hacc p hp'
      obtain ⟨s, hfold, hsort⟩ :=
        ih acc' (fun p hp => hl p (List.mem_cons_of_mem x hp)) hnan' hsorted'
      refine ⟨s, ?_, hsort⟩
      simp only [List.foldl_cons]
      have hb : (some acc).bind (sortInsertOpt cmpScoresRev x)
          = sortInsertOpt cmpScoresRev x acc := rfl
      rw [hb, hacc']
      exact hfold

/-! ## Claim C1 -/

/-- C1 counterexample: in the run insert a, insert b, remove a, insert c,
the distinct known paths b and c both hold DocumentId 1, because insert
assigns self.index.len() as the next id; and in the run insert a, remove a,
insert b, the id 0 that belonged to the removed path a is reassigned to b.
This refutes the claim that DocumentIds stay unique and that an id of a
removed path is never reassigned within a run. -/
theorem collection_ids_not_unique_after_remove :
    (Collection.run [.ins "a" 0, .ins "b" 0, .rem "a", .ins "c" 0]).get_document_id "b"
        = some 1 ∧
      (Collection.run [.ins "a" 0, .ins "b" 0, .rem "a", .ins "c" 0]).get_document_id "c"
        = some 1 ∧
      (Collection.run [.ins "a" 0]).get_document_id "a" = some 0 ∧
      (Collection.run [.ins "a" 0, .rem "a", .ins "b" 0]).get_document_id "b"
        = some 0 := by
  decide

/-- C1 (amended to insert-only runs): for every sequence of inserts within
a single run, and no removes, distinct known paths hold distinct
DocumentIds, every recorded id lies below the collection size, every id
below the size is held by some path (so the ids are exactly 0..size-1),
and a newly inserted unknown path is assigned the collection size — the
smallest unused integer. -/
theorem collection_ids_unique_insert_only (ps : List (DocPath × Time)) :
    (∀ p₁ p₂ e₁ e₂, (Collection.runInserts ps).index.lookup p₁ = some e₁ →
      (Collection.runInserts ps).index.lookup p₂ = some e₂ →
      e₁.document_id = e₂.document_id → p₁ = p₂) ∧
    (∀ p e, (Collection.runInserts ps).index.lookup p = some e →
      e.document_id < (Collection.runInserts ps).size) ∧
    (∀ id, id < (Collection.runInserts ps).size →
      ∃ p e, (Collection.runInserts ps).index.lookup p = some e ∧ e.document_id = id) ∧
    (∀ p t, p ∉ (Collection.runInserts ps).index →
      (Collection.runInserts ps).insert p (some t)
        = some (Collection.mk (Collection.runInserts ps).root_dir
            ((Collection.runInserts ps).index.insert p
              ⟨(Collection.runInserts ps).size, t⟩))) := by
  obtain ⟨hlt, hinj, hsur⟩ := Collection.goodIds_runInserts ps
  refine ⟨hinj, hlt, hsur, ?_⟩
  intro p t hp
  simp [Collection.insert, hp, Collection.size]

/-- Witness for the amended C1 at a concrete insert-only run. -/
theorem collection_ids_unique_insert_only_witness :
    ((Collection.runInserts [("a", 5), ("b", 6)]).index.lookup "a"
        = some ⟨0, 5⟩) ∧
      ((Collection.runInserts [("a", 5), ("b", 6)]).index.lookup "b"
        = some ⟨1, 6⟩) ∧
      "a" = "a" ∧
      ("c" ∉ (Collection.runInserts [("a", 5), ("b", 6)]).index) ∧
      ((Collection.runInserts [("a", 5), ("b", 6)]).insert "c" (some 7)
        = some (Collection.mk (Collection.runInserts [("a", 5), ("b", 6)]).root_dir
            ((Collection.runInserts [("a", 5), ("b", 6)]).index.insert "c"
              ⟨(Collection.runInserts [("a", 5), ("b", 6)]).size, 7⟩))) :=
  ⟨by decide, by decide,
    (collection_ids_unique_insert_only [("a", 5), ("b", 6)]).1 "a" "a" ⟨0, 5⟩ ⟨0, 5⟩
      (by decide) (by decide) rfl,
    by decide,
    (collection_ids_unique_insert_only [("a", 5), ("b", 6)]).2.2.2 "c" 7 (by decide)⟩

/-! ## Claim C7 -/

/-- C7: Collection::insert is idempotent on known paths: when the path is
already present the call succeeds without even performing the stat (it
succeeds for every stat outcome) and returns the collection unchanged, so
the path's DocumentId, its recorded modified time and every other entry
stay exactly as they were. -/
theorem collection_insert_idempotent (c : Collection) (p : DocPath)
    (stat : Option Time) (h : p ∈ c.index) : c.insert p stat = some c := by
  simp [Collection.insert, h]

/-- Witness for C7: re-inserting a known path (even with a failing stat)
returns the collection unchanged. -/
theorem collection_insert_idempotent_witness :
    ("a" ∈ (Collection.run [CollectionOp.ins "a" 3]).index) ∧
      (Collection.run [CollectionOp.ins "a" 3]).insert "a" none
        = some (Collection.run [CollectionOp.ins "a" 3]) :=
  ⟨by decide, collection_insert_idempotent _ "a" none (by decide)⟩

/-! ## Claim C5 -/

/-- C5: adding a posting for a document already present in a
FrequencyPostingsList leaves the list unchanged — the length is unchanged
and get still returns the old frequency, because HashSet::insert keeps the
existing element and posting equality is defined solely by DocumentId. -/
theorem postings_add_existing_noop (l : FrequencyPostingsList) (d : DocumentId)
    (f f' : ℕ) (h : l.get d = some ⟨d, f⟩) :
    l.add ⟨d, f'⟩ = l ∧ (l.add ⟨d, f'⟩).len = l.len ∧
      (l.add ⟨d, f'⟩).get d = some ⟨d, f⟩ := by
  have hd : d ∈ l.inner := by
    rcases Option.map_eq_some'.mp h with ⟨g, hg, _⟩
    exact Finmap.mem_of_lookup_eq_some hg
  have heq : l.add ⟨d, f'⟩ = l := by
    simp [FrequencyPostingsList.add, hd]
  exact ⟨heq, by rw [heq], by rw [heq]; exact h⟩

/-- Witness for C5 at a concrete postings list. -/
theorem postings_add_existing_noop_witness :
    ((FrequencyPostingsList.new.add ⟨3, 5⟩).get 3 = some ⟨3, 5⟩) ∧
      (FrequencyPostingsList.new.add ⟨3, 5⟩).add ⟨3, 9⟩
        = FrequencyPostingsList.new.add ⟨3, 5⟩ ∧
      ((FrequencyPostingsList.new.add ⟨3, 5⟩).add ⟨3, 9⟩).get 3 = some ⟨3, 5⟩ :=
  ⟨by decide,
    (postings_add_existing_noop (FrequencyPostingsList.new.add ⟨3, 5⟩) 3 5 9
      (by decide)).1,
    (postings_add_existing_noop (FrequencyPostingsList.new.add ⟨3, 5⟩) 3 5 9
      (by decide)).2.2⟩

/-! ## Claim C6 -/

/-- C6: starting from the empty Encoder, after any sequence of encode calls
the vocabulary is bijective — no two strings share an id, every id
strictly below size() is assigned to exactly one string, every assigned id
is below size(); moreover encode of a present token returns its id and
leaves the encoder unchanged, and encode of a new token returns the
current size() as its id. -/
theorem encoder_vocabulary_bijective (ts : List String) :
    (∀ s₁ s₂ id, (Encoder.runEncode ts).vocabulary.lookup s₁ = some id →
      (Encoder.runEncode ts).vocabulary.lookup s₂ = some id → s₁ = s₂) ∧
    (∀ id, id < (Encoder.runEncode ts).size →
      ∃! s, (Encoder.runEncode ts).vocabulary.lookup s = some id) ∧
    (∀ s id, (Encoder.runEncode ts).vocabulary.lookup s = some id →
      id < (Encoder.runEncode ts).size) ∧
    (∀ s id, (Encoder.runEncode ts).vocabulary.lookup s = some id →
      (Encoder.runEncode ts).encode s = (id, Encoder.runEncode ts)) ∧
    (∀ s, (Encoder.runEncode ts).vocabulary.lookup s = none →
      ((Encoder.runEncode ts).encode s).1 = (Encoder.runEncode ts).size) := by
  obtain ⟨hlt, hinj, hsur⟩ := Encoder.goodVocab_runEncode ts
  refine ⟨hinj, ?_, hlt, ?_, ?_⟩
  · intro id hid
    obtain ⟨s, hs⟩ := hsur id hid
    exact ⟨s, hs, fun s' hs' => hinj s' s id hs' hs⟩
  · intro s id h
    simp [Encoder.encode, h]
  · intro s h
    simp [Encoder.encode, h]

/-- Witness for C6 at a concrete encode sequence (the sequence of the
system's own encoder test). -/
theorem encoder_vocabulary_bijective_witness :
    ((Encoder.runEncode ["i", "want", "it", "i"]).vocabulary.lookup "want"
        = some 1) ∧
      (∃! s, (Encoder.runEncode ["i", "want", "it", "i"]).vocabulary.lookup s
        = some 1) ∧
      (Encoder.runEncode ["i", "want", "it", "i"]).encode "want"
        = (1, Encoder.runEncode ["i", "want", "it", "i"]) ∧
      ((Encoder.runEncode ["i", "want", "it", "i"]).vocabulary.lookup "new" = none) ∧
      ((Encoder.runEncode ["i", "want", "it", "i"]).encode "new").1 = 3 :=
  ⟨by decide,
    (encoder_vocabulary_bijective ["i", "want", "it", "i"]).2.1 1 (by decide),
    (encoder_vocabulary_bijective ["i", "want", "it", "i"]).2.2.2.1 "want" 1
      (by decide),
    by decide,
    (encoder_vocabulary_bijective ["i", "want", "it", "i"]).2.2.2.2 "new"
      (by decide)⟩

/-! ## Claim C8 -/

/-- C8: calc_tf returns 0 when the total term count d is 0 and t divided by
d otherwise; in particular calc_tf 0 0 is exactly 0 (the division is only
reached with a nonzero divisor, so no NaN can arise). -/
theorem calc_tf_spec (t d : ℕ) :
    (d = 0 → calc_tf t d = 0) ∧ (d ≠ 0 → calc_tf t d = (t : ℚ) / d) ∧
      calc_tf 0 0 = 0 := by
  refine ⟨fun h => by simp [calc_tf, h], fun h => by simp [calc_tf, h], by
    simp [calc_tf]⟩

/-- Witness for C8: the zero-length-document case and a plain division. -/
theorem calc_tf_spec_witness :
    calc_tf 0 0 = 0 ∧ calc_tf 3 4 = (3 : ℚ) / 4 :=
  ⟨(calc_tf_spec 0 0).2.2, (calc_tf_spec 3 4).2.1 (by decide)⟩

/-! ## Claim C9 -/

/-- C9: for a fixed total document count n, calc_idf strictly decreases as
the number of documents containing the term increases. -/
theorem calc_idf_strict_antitone (n d₁ d₂ : ℕ) (h : d₁ < d₂) :
    calc_idf d₂ n < calc_idf d₁ n := by
  unfold calc_idf
  apply Real.logb_lt_logb (by norm_num)
  · positivity
  · apply div_lt_div_of_pos_left
    · positivity
    · positivity
    · have : (d₁ : ℝ) < (d₂ : ℝ) := by exact_mod_cast h
      linarith

/-- Witness for C9 at a concrete pair of document counts. -/
theorem calc_idf_strict_antitone_witness :
    0 < 1 ∧ calc_idf 1 1 < calc_idf 0 1 :=
  ⟨by decide, calc_idf_strict_antitone 1 0 1 (by decide)⟩

/-! ## Claim C3 -/

/-- C3: whenever doc_id is a member of doc_ids_containing(term), the two
unwraps inside term_frequency succeed — the token lookup yields a postings
list and get(doc_id) yields its posting — and term_frequency returns the
frequency recorded in that posting. -/
theorem term_frequency_of_mem_doc_ids (F : FrequencyIndex) (d : DocumentId)
    (t : Token) (h : d ∈ F.doc_ids_containing t) :
    ∃ postings_list f,
      F.inverted_index.inner.lookup t = some postings_list ∧
        postings_list.get d = some ⟨d, f⟩ ∧ F.term_frequency d t = some f := by
  unfold FrequencyIndex.doc_ids_containing at h
  cases hl : F.inverted_index.inner.lookup t with
  | none =>
      rw [hl] at h
      simp at h
  | some pl =>
      rw [hl] at h
      have hm : d ∈ pl.inner := Finmap.mem_keys.mp h
      obtain ⟨f, hf⟩ := Finmap.mem_iff.mp hm
      refine ⟨pl, f, rfl, ?_, ?_⟩
      · simp [FrequencyPostingsList.get, hf]
      · simp [FrequencyIndex.term_frequency, hl, FrequencyPostingsList.get, hf]

/-- Witness for C3 on the reference index: document 0 contains token 1, so
term_frequency 0 1 returns without hitting either unwrap. -/
theorem term_frequency_of_mem_doc_ids_witness :
    (0 ∈ exampleIndex.doc_ids_containing 1) ∧
      ∃ postings_list f,
        exampleIndex.inverted_index.inner.lookup 1 = some postings_list ∧
          postings_list.get 0 = some ⟨0, f⟩ ∧
          exampleIndex.term_frequency 0 1 = some f :=
  ⟨by decide, term_frequency_of_mem_doc_ids exampleIndex 0 1 (by decide)⟩


/-! ## Claim C10 -/

theorem sortByOpt_nan_none (l : List (ℕ × F64)) (h2 : 2 ≤ l.length)
    (hnan : ∃ p ∈ l, p.2 = F64.nan) : sortByOpt cmpScoresRev l = none := by
  cases hs : sortByOpt cmpScoresRev l with
  | none => rfl
  | some s =>
      exfalso
      have hperm : s.Perm ([] ++ l) := sortByOpt_perm l [] s hs
      rw [List.nil_append] at hperm
      have hinv : NoNanOrShort s := sortByOpt_noNan l [] s (Or.inl (by simp)) hs
      obtain ⟨p, hp, hpn⟩ := hnan
      rcases hinv with hshort | hnone
      · rw [hperm.length_eq] at hshort
        omega
      · exact hnone p (hperm.mem_iff.mpr hp) hpn

/-- C10 (amended): when every stored score is comparable (no NaN),
get_top_n n returns the first n entries of a stable descending sort of the
score table: exactly min n (number of scored documents) pairs, in
non-increasing score order, and every returned score is at least every
score of a document not returned.  When a NaN score is present among at
least two stored scores, the comparison inside get_top_n panics (the sort
must compare the NaN entry with some other entry), so get_top_n does not
return; a lone NaN entry, however, is returned without any comparison. -/
theorem get_top_n_spec (ds : DocumentsScores) (n : ℕ) :
    ((∀ p ∈ ds.entriesList, p.2 ≠ F64.nan) →
      ∃ s, sortByOpt cmpScoresRev ds.entriesList = some s ∧
        s.Perm ds.entriesList ∧ s.Sorted scoreGe ∧
        ds.get_top_n n = some (s.take n) ∧
        (s.take n).length = min n ds.entriesList.length ∧
        (∀ a ∈ s.take n, ∀ b ∈ s.drop n, F64.fle b.2 a.2)) ∧
    ((∃ p ∈ ds.entriesList, p.2 = F64.nan) → 2 ≤ ds.entriesList.length →
      ds.get_top_n n = none) := by
  constructor
  · intro hnn
    obtain ⟨s, hfold, hsort⟩ := sortByOpt_total_sorted ds.entriesList []
      hnn (by simp) (by simp)
    have hs : sortByOpt cmpScoresRev ds.entriesList = some s := hfold
    have hperm : s.Perm ds.entriesList := by
      have h := sortByOpt_perm ds.entriesList [] s hfold
      rw [List.nil_append] at h
      exact h
    refine ⟨s, hs, hperm, hsort, ?_, ?_, ?_⟩
    · simp [DocumentsScores.get_top_n, hs]
    · rw [List.length_take, hperm.length_eq]
    · intro a ha b hb
      exact hsort.rel_of_mem_take_of_mem_drop ha hb
  · intro hnan h2
    have hnone := sortByOpt_nan_none ds.entriesList h2 hnan
    simp [DocumentsScores.get_top_n, hnone]

/-- Witness for the amended C10: the comparable case on a two-document
table, and the panic case on a table with a NaN among two scores. -/
theorem get_top_n_spec_witness :
    ((∀ p ∈ exampleScores.entriesList, p.2 ≠ F64.nan) ∧
      ∃ s, sortByOpt cmpScoresRev exampleScores.entriesList = some s ∧
        s.Perm exampleScores.entriesList ∧ s.Sorted scoreGe ∧
        exampleScores.get_top_n 1 = some (s.take 1) ∧
        (s.take 1).length = min 1 exampleScores.entriesList.length ∧
        (∀ a ∈ s.take 1, ∀ b ∈ s.drop 1, F64.fle b.2 a.2)) ∧
    ((∃ p ∈ exampleNanScores.entriesList, p.2 = F64.nan) ∧
      2 ≤ exampleNanScores.entriesList.length ∧
      exampleNanScores.get_top_n 2 = none) :=
  ⟨⟨by decide, (get_top_n_spec exampleScores 1).1 (by decide)⟩,
    ⟨by decide, by decide,
      (get_top_n_spec exampleNanScores 2).2 (by decide) (by decide)⟩⟩

/-- C10 counterexample to the claim as stated: with a single stored score
that is NaN, the sort of the one-element entry list performs no comparison,
so get_top_n returns the NaN entry instead of panicking. -/
theorem get_top_n_nan_singleton_returns :
    (DocumentsScores.new.add_score 0 F64.nan).get_top_n 1
      = some [(0, F64.nan)] := by
  decide

/-! ## Claim C2 -/

theorem FrequencyPostingsList.ext_inner {l₁ l₂ : FrequencyPostingsList}
    (h : l₁.inner = l₂.inner) : l₁ = l₂ := by
  cases l₁
  cases l₂
  cases h
  rfl

theorem FrequencyPostingsList.add_inner (pl : FrequencyPostingsList)
    (p : FrequencyPosting) :
    (pl.add p).inner = if p.doc_id ∈ pl.inner then pl.inner
      else pl.inner.insert p.doc_id p.frequency := by
  unfold FrequencyPostingsList.add
  by_cases h : p.doc_id ∈ pl.inner <;> simp [h]

theorem FrequencyPostingsList.add_comm_of_ne (pl : FrequencyPostingsList)
    (p₁ p₂ : FrequencyPosting) (h : p₁.doc_id ≠ p₂.doc_id) :
    (pl.add p₁).add p₂ = (pl.add p₂).add p₁ := by
  apply FrequencyPostingsList.ext_inner
  by_cases h1 : p₁.doc_id ∈ pl.inner <;> by_cases h2 : p₂.doc_id ∈ pl.inner
  · simp [FrequencyPostingsList.add_inner, h1, h2]
  · simp [FrequencyPostingsList.add_inner, h1, h2, Finmap.mem_insert, h]
  · simp [FrequencyPostingsList.add_inner, h1, h2, Finmap.mem_insert, Ne.symm h]
  · simp only [FrequencyPostingsList.add_inner, h1, h2, if_neg,
      Finmap.mem_insert, Ne.symm h, h, false_or, or_false, if_false]
    exact Finmap.insert_insert_of_ne _ h

theorem FrequencyInvertedIndex.indexEntry_eq (doc_id : DocumentId)
    (inv : FrequencyInvertedIndex) (e : Sigma fun _ : Token => ℕ) :
    FrequencyInvertedIndex.indexEntry doc_id inv e
      = ⟨inv.inner.insert e.1
          (((inv.inner.lookup e.1).getD FrequencyPostingsList.new).add ⟨doc_id, e.2⟩)⟩ := by
  unfold FrequencyInvertedIndex.indexEntry
  cases h : inv.inner.lookup e.1 <;> simp [h]

theorem FrequencyInvertedIndex.indexEntry_comm (id₁ id₂ : DocumentId)
    (h : id₁ ≠ id₂) (e₁ e₂ : Sigma fun _ : Token => ℕ)
    (inv : FrequencyInvertedIndex) :
    FrequencyInvertedIndex.indexEntry id₂
        (FrequencyInvertedIndex.indexEntry id₁ inv e₁) e₂
      = FrequencyInvertedIndex.indexEntry id₁
          (FrequencyInvertedIndex.indexEntry id₂ inv e₂) e₁ := by
  rw [FrequencyInvertedIndex.indexEntry_eq, FrequencyInvertedIndex.indexEntry_eq,
    FrequencyInvertedIndex.indexEntry_eq, FrequencyInvertedIndex.indexEntry_eq]
  by_cases ht : e₂.1 = e₁.1
  · rw [ht]
    rw [Finmap.lookup_insert, Finmap.lookup_insert]
    rw [Finmap.insert_insert, Finmap.insert_insert]
    simp only [Option.getD_some]
    exact congrArg
      (fun pl => FrequencyInvertedIndex.mk (Finmap.insert e₁.1 pl inv.inner))
      (FrequencyPostingsList.add_comm_of_ne
        ((inv.inner.lookup e₁.1).getD FrequencyPostingsList.new)
        ⟨id₁, e₁.2⟩ ⟨id₂, e₂.2⟩ h)
  · rw [Finmap.lookup_insert_of_ne _ ht, Finmap.lookup_insert_of_ne _ fun hh => ht hh.symm]
    exact congrArg FrequencyInvertedIndex.mk
      (Finmap.insert_insert_of_ne _ fun hh => ht hh.symm)

theorem FrequencyInvertedIndex.foldl_indexEntry_comm (id₁ id₂ : DocumentId)
    (h : id₁ ≠ id₂) (l : List (Sigma fun _ : Token => ℕ))
    (e : Sigma fun _ : Token => ℕ) :
    ∀ inv, l.foldl (FrequencyInvertedIndex.indexEntry id₁)
        (FrequencyInvertedIndex.indexEntry id₂ inv e)
      = FrequencyInvertedIndex.indexEntry id₂
          (l.foldl (FrequencyInvertedIndex.indexEntry id₁) inv) e := by
  induction l with
  | nil => intro inv; rfl
  | cons x xs ih =>
      intro inv
      simp only [List.foldl_cons]
      rw [FrequencyInvertedIndex.indexEntry_comm id₂ id₁ (Ne.symm h) e x inv]
      exact ih (FrequencyInvertedIndex.indexEntry id₁ inv x)

theorem FrequencyInvertedIndex.foldl_foldl_comm (id₁ id₂ : DocumentId)
    (h : id₁ ≠ id₂) (l₁ l₂ : List (Sigma fun _ : Token => ℕ)) :
    ∀ inv, l₂.foldl (FrequencyInvertedIndex.indexEntry id₂)
        (l₁.foldl (FrequencyInvertedIndex.indexEntry id₁) inv)
      = l₁.foldl (FrequencyInvertedIndex.indexEntry id₁)
          (l₂.foldl (FrequencyInvertedIndex.indexEntry id₂) inv) := by
  induction l₂ with
  | nil => intro inv; rfl
  | cons x xs ih =>
      intro inv
      simp only [List.foldl_cons]
      rw [← FrequencyInvertedIndex.foldl_indexEntry_comm id₁ id₂ h l₁ x inv]
      exact ih (FrequencyInvertedIndex.indexEntry id₂ inv x)

theorem FrequencyInvertedIndex.index_comm (inv : FrequencyInvertedIndex)
    (A B : DocumentFrequencyIndex) (h : A.id ≠ B.id) :
    (inv.index A).index B = (inv.index B).index A := by
  unfold FrequencyInvertedIndex.index
  exact FrequencyInvertedIndex.foldl_foldl_comm A.id B.id h
    A.index.entries B.index.entries inv

theorem DocumentTermsCounter.insert_comm (c : DocumentTermsCounter)
    (d₁ d₂ n₁ n₂ : ℕ) (h : d₁ ≠ d₂) :
    (c.insert_doc_terms d₁ n₁).insert_doc_terms d₂ n₂
      = (c.insert_doc_terms d₂ n₂).insert_doc_terms d₁ n₁ := by
  unfold DocumentTermsCounter.insert_doc_terms
  exact congrArg DocumentTermsCounter.mk (Finmap.insert_insert_of_ne _ h)

theorem FrequencyIndex.index_step_comm (F : FrequencyIndex)
    (A B : DocumentFrequencyIndex) (h : A.id ≠ B.id) :
    (F.index A).index B = (F.index B).index A := by
  unfold FrequencyIndex.index
  exact congrArg₂ FrequencyIndex.mk
    (FrequencyInvertedIndex.index_comm F.inverted_index A B h)
    (DocumentTermsCounter.insert_comm F.doc_terms_counter A.id B.id
      A.n_terms B.n_terms h)

/-- C2: folding a set of per-document frequency indices with pairwise
distinct document ids into the empty FrequencyIndex yields the same final
index — the same token-to-postings map and the same per-document
total-term table, hence identical answers from n_docs, n_terms,
n_docs_containing, doc_ids_containing and term_frequency — in whatever
order the pipeline delivers them. -/
theorem frequency_index_fold_order_independent
    (l₁ l₂ : List DocumentFrequencyIndex)
    (hnd : (l₁.map DocumentFrequencyIndex.id).Nodup) (hp : l₁.Perm l₂) :
    l₁.foldl FrequencyIndex.index FrequencyIndex.new
        = l₂.foldl FrequencyIndex.index FrequencyIndex.new ∧
      (l₁.foldl FrequencyIndex.index FrequencyIndex.new).n_docs
        = (l₂.foldl FrequencyIndex.index FrequencyIndex.new).n_docs ∧
      (∀ d, (l₁.foldl FrequencyIndex.index FrequencyIndex.new).n_terms d
        = (l₂.foldl FrequencyIndex.index FrequencyIndex.new).n_terms d) ∧
      (∀ t, (l₁.foldl FrequencyIndex.index FrequencyIndex.new).n_docs_containing t
        = (l₂.foldl FrequencyIndex.index FrequencyIndex.new).n_docs_containing t) ∧
      (∀ t, (l₁.foldl FrequencyIndex.index FrequencyIndex.new).doc_ids_containing t
        = (l₂.foldl FrequencyIndex.index FrequencyIndex.new).doc_ids_containing t) ∧
      (∀ d t, (l₁.foldl FrequencyIndex.index FrequencyIndex.new).term_frequency d t
        = (l₂.foldl FrequencyIndex.index FrequencyIndex.new).term_frequency d t) := by
  have hmain : l₁.foldl FrequencyIndex.index FrequencyIndex.new
      = l₂.foldl FrequencyIndex.index FrequencyIndex.new := by
    refine hp.foldl_eq' ?_ FrequencyIndex.new
    intro x hx y hy z
    rcases eq_or_ne x y with rfl | hxy
    · rfl
    · exact FrequencyIndex.index_step_comm z x y
        fun hid => hxy (List.inj_on_of_nodup_map hnd hx hy hid)
  exact ⟨hmain, by rw [hmain], fun d => by rw [hmain], fun t => by rw [hmain],
    fun t => by rw [hmain], fun d t => by rw [hmain]⟩

/-- Witness for C2: the two reference documents folded in both orders. -/
theorem frequency_index_fold_order_independent_witness :
    (([DocumentFrequencyIndex.ofTokens 0 [1, 2, 3, 1, 4],
        DocumentFrequencyIndex.ofTokens 1 [1, 2, 5]].map
          DocumentFrequencyIndex.id).Nodup) ∧
      [DocumentFrequencyIndex.ofTokens 0 [1, 2, 3, 1, 4],
        DocumentFrequencyIndex.ofTokens 1 [1, 2, 5]].foldl FrequencyIndex.index
          FrequencyIndex.new
        = [DocumentFrequencyIndex.ofTokens 1 [1, 2, 5],
            DocumentFrequencyIndex.ofTokens 0 [1, 2, 3, 1, 4]].foldl
              FrequencyIndex.index FrequencyIndex.new :=
  ⟨by decide,
    (frequency_index_fold_order_independent
      [DocumentFrequencyIndex.ofTokens 0 [1, 2, 3, 1, 4],
        DocumentFrequencyIndex.ofTokens 1 [1, 2, 5]]
      [DocumentFrequencyIndex.ofTokens 1 [1, 2, 5],
        DocumentFrequencyIndex.ofTokens 0 [1, 2, 3, 1, 4]]
      (by decide) (List.Perm.swap _ _ _)).1⟩

/-! ## Claim C4: lemmas about the postings recorded for one document -/

theorem FrequencyIndex.term_frequency_eq_postingFreq (F : FrequencyIndex)
    (d : DocumentId) (t : Token) :
    F.term_frequency d t = F.inverted_index.postingFreq d t := by
  unfold FrequencyIndex.term_frequency FrequencyInvertedIndex.postingFreq
  cases hl : F.inverted_index.inner.lookup t with
  | none => rfl
  | some pl =>
      simp only [Option.some_bind]
      unfold FrequencyPostingsList.get
      cases pl.inner.lookup d <;> rfl

theorem FrequencyInvertedIndex.postingFreq_indexEntry_ne (did d : DocumentId)
    (h : d ≠ did) (inv : FrequencyInvertedIndex)
    (e : Sigma fun _ : Token => ℕ) (t : Token) :
    (FrequencyInvertedIndex.indexEntry did inv e).postingFreq d t
      = inv.postingFreq d t := by
  rw [FrequencyInvertedIndex.indexEntry_eq]
  unfold FrequencyInvertedIndex.postingFreq
  dsimp only
  by_cases ht : t = e.1
  · subst ht
    rw [Finmap.lookup_insert]
    simp only [Option.some_bind]
    cases hl : inv.inner.lookup e.1 with
    | none =>
        simp only [hl, Option.getD_none, Option.none_bind]
        rw [FrequencyPostingsList.add_inner]
        rw [if_neg (by exact Finmap.not_mem_empty)]
        rw [Finmap.lookup_insert_of_ne _ h]
        exact Finmap.lookup_empty d
    | some pl =>
        simp only [hl, Option.getD_some, Option.some_bind]
        rw [FrequencyPostingsList.add_inner]
        by_cases hm : did ∈ pl.inner
        · rw [if_pos hm]
        · rw [if_neg hm]
          exact Finmap.lookup_insert_of_ne _ h
  · rw [Finmap.lookup_insert_of_ne _ ht]

theorem FrequencyInvertedIndex.postingFreq_foldl_ne (did d : DocumentId)
    (h : d ≠ did) (t : Token) :
    ∀ (es : List (Sigma fun _ : Token => ℕ)) (inv : FrequencyInvertedIndex),
      (es.foldl (FrequencyInvertedIndex.indexEntry did) inv).postingFreq d t
        = inv.postingFreq d t := by
  intro es
  induction es with
  | nil => intro inv; rfl
  | cons e es ih =>
      intro inv
      simp only [List.foldl_cons]
      rw [ih (FrequencyInvertedIndex.indexEntry did inv e)]
      exact FrequencyInvertedIndex.postingFreq_indexEntry_ne did d h inv e t

theorem FrequencyInvertedIndex.postingFreq_index_ne (d : DocumentId)
    (B : DocumentFrequencyIndex) (h : d ≠ B.id) (inv : FrequencyInvertedIndex)
    (t : Token) : (inv.index B).postingFreq d t = inv.postingFreq d t := by
  unfold FrequencyInvertedIndex.index
  exact FrequencyInvertedIndex.postingFreq_foldl_ne B.id d h t B.index.entries inv

theorem FrequencyIndex.postingFreq_foldl_docs_ne (d : DocumentId) (t : Token) :
    ∀ (l : List DocumentFrequencyIndex) (F : FrequencyIndex),
      (∀ B ∈ l, d ≠ B.id) →
      ((l.foldl FrequencyIndex.index F).inverted_index.postingFreq d t
        = F.inverted_index.postingFreq d t) := by
  intro l
  induction l with
  | nil => intro F _; rfl
  | cons B l ih =>
      intro F hl
      simp only [List.foldl_cons]
      rw [ih (F.index B) fun C hC => hl C (List.mem_cons_of_mem B hC)]
      exact FrequencyInvertedIndex.postingFreq_index_ne d B
        (hl B (List.mem_cons_self B l)) F.inverted_index t

theorem FrequencyInvertedIndex.postingFreq_indexEntry_self (did : DocumentId)
    (inv : FrequencyInvertedIndex) (e : Sigma fun _ : Token => ℕ)
    (h : inv.postingFreq did e.1 = none) (t : Token) :
    (FrequencyInvertedIndex.indexEntry did inv e).postingFreq did t
      = if t = e.1 then some e.2 else inv.postingFreq did t := by
  rw [FrequencyInvertedIndex.indexEntry_eq]
  unfold FrequencyInvertedIndex.postingFreq at h ⊢
  dsimp only
  by_cases ht : t = e.1
  · subst ht
    rw [if_pos rfl, Finmap.lookup_insert]
    simp only [Option.some_bind]
    cases hl : inv.inner.lookup e.1 with
    | none =>
        simp only [Option.getD_none]
        rw [FrequencyPostingsList.add_inner]
        rw [if_neg (by exact Finmap.not_mem_empty)]
        exact Finmap.lookup_insert _
    | some pl =>
        rw [hl] at h
        rw [Option.some_bind] at h
        simp only [Option.getD_some]
        rw [FrequencyPostingsList.add_inner]
        rw [if_neg (Finmap.lookup_eq_none.mp h)]
        exact Finmap.lookup_insert _
  · rw [if_neg ht, Finmap.lookup_insert_of_ne _ ht]

theorem FrequencyInvertedIndex.postingFreq_foldl_self (did : DocumentId) :
    ∀ (es : List (Sigma fun _ : Token => ℕ)) (inv : FrequencyInvertedIndex),
      es.NodupKeys → (∀ e ∈ es, inv.postingFreq did e.1 = none) → ∀ t,
      (es.foldl (FrequencyInvertedIndex.indexEntry did) inv).postingFreq did t
        = (es.dlookup t).or (inv.postingFreq did t) := by
  intro es
  induction es with
  | nil =>
      intro inv _ _ t
      rw [List.dlookup_nil, Option.none_or]
      rfl
  | cons e es ih =>
      intro inv hnd hnone t
      have hkey : e.1 ∉ es.keys := List.not_mem_keys_of_nodupKeys_cons hnd
      have hnd2 : es.NodupKeys := List.nodupKeys_of_nodupKeys_cons hnd
      have hself := FrequencyInvertedIndex.postingFreq_indexEntry_self did inv e
        (hnone e (List.mem_cons_self e es))
      have hnone2 : ∀ e2 ∈ es,
          (FrequencyInvertedIndex.indexEntry did inv e).postingFreq did e2.1
            = none := by
        intro e2 he2
        rw [hself e2.1]
        rw [if_neg fun hh => hkey (by rw [← hh]; exact List.mem_keys_of_mem he2)]
        exact hnone e2 (List.mem_cons_of_mem e he2)
      simp only [List.foldl_cons]
      rw [ih (FrequencyInvertedIndex.indexEntry did inv e) hnd2 hnone2 t]
      rw [hself t]
      obtain ⟨a, b⟩ := e
      by_cases ht : t = a
      · subst ht
        rw [List.dlookup_cons_eq]
        rw [if_pos rfl]
        rw [List.dlookup_eq_none.mpr hkey, Option.none_or]
        cases inv.postingFreq did t <;> rfl
      · rw [List.dlookup_cons_ne _ _ ht]
        rw [if_neg ht]

theorem FrequencyInvertedIndex.postingFreq_index_self
    (A : DocumentFrequencyIndex) (inv : FrequencyInvertedIndex)
    (h : ∀ t, inv.postingFreq A.id t = none) (t : Token) :
    (inv.index A).postingFreq A.id t = A.index.lookup t := by
  unfold FrequencyInvertedIndex.index
  rw [FrequencyInvertedIndex.postingFreq_foldl_self A.id A.index.entries inv
    A.index.nodupKeys (fun e _ => h e.1) t]
  rw [h t, Option.or_none]
  rfl

theorem FrequencyIndex.counter_foldl_ne (d : DocumentId) :
    ∀ (l : List DocumentFrequencyIndex) (F : FrequencyIndex),
      (∀ B ∈ l, d ≠ B.id) →
      (l.foldl FrequencyIndex.index F).doc_terms_counter.inner.lookup d
        = F.doc_terms_counter.inner.lookup d := by
  intro l
  induction l with
  | nil => intro F _; rfl
  | cons B l ih =>
      intro F hl
      simp only [List.foldl_cons]
      rw [ih (F.index B) fun C hC => hl C (List.mem_cons_of_mem B hC)]
      exact Finmap.lookup_insert_of_ne _ (hl B (List.mem_cons_self B l))

theorem sum_kerase_of_dlookup :
    ∀ (l : List (Sigma fun _ : Token => ℕ)), l.NodupKeys → ∀ (t : Token) (c : ℕ),
      l.dlookup t = some c →
      (l.map fun e => e.2).sum = c + ((List.kerase t l).map fun e => e.2).sum := by
  intro l
  induction l with
  | nil =>
      intro _ t c hc
      rw [List.dlookup_nil] at hc
      cases hc
  | cons e l ih =>
      intro hnd t c hc
      obtain ⟨a, b⟩ := e
      by_cases ht : t = a
      · subst ht
        rw [List.dlookup_cons_eq] at hc
        cases hc
        have hk : List.kerase t ((⟨t, c⟩ : Sigma fun _ : Token => ℕ) :: l) = l :=
          List.kerase_cons_eq rfl
        rw [hk]
        simp only [List.map_cons, List.sum_cons]
      · rw [List.dlookup_cons_ne _ _ ht] at hc
        rw [List.kerase_cons_ne (by exact ht)]
        simp only [List.map_cons, List.sum_cons]
        rw [ih (List.nodupKeys_of_nodupKeys_cons hnd) t c hc]
        omega

theorem DocumentFrequencyIndex.sumCounts_add_token (D : DocumentFrequencyIndex)
    (t : Token) : (D.add_token t).sumCounts = D.sumCounts + 1 := by
  unfold DocumentFrequencyIndex.add_token DocumentFrequencyIndex.sumCounts
  dsimp only
  cases hl : D.index.lookup t with
  | none =>
      simp only [AList.insert_entries, List.map_cons, List.sum_cons]
      rw [List.kerase_of_not_mem_keys (by
        rw [← List.dlookup_eq_none]
        exact hl)]
      omega
  | some c =>
      simp only [AList.insert_entries, List.map_cons, List.sum_cons]
      rw [sum_kerase_of_dlookup D.index.entries D.index.nodupKeys t c hl]
      omega

theorem DocumentFrequencyIndex.n_terms_eq_sumCounts (id : DocumentId)
    (ts : List Token) :
    (DocumentFrequencyIndex.ofTokens id ts).n_terms
      = (DocumentFrequencyIndex.ofTokens id ts).sumCounts := by
  unfold DocumentFrequencyIndex.ofTokens DocumentFrequencyIndex.index_tokens
  suffices h : ∀ (l : List Token) (D : DocumentFrequencyIndex),
      D.n_terms = D.sumCounts →
      (l.foldl DocumentFrequencyIndex.add_token D).n_terms
        = (l.foldl DocumentFrequencyIndex.add_token D).sumCounts by
    exact h ts (DocumentFrequencyIndex.new id) rfl
  intro l
  induction l with
  | nil => intro D hD; exact hD
  | cons t l ihl =>
      intro D hD
      simp only [List.foldl_cons]
      refine ihl (D.add_token t) ?_
      rw [DocumentFrequencyIndex.sumCounts_add_token]
      show D.n_terms + 1 = D.sumCounts + 1
      omega

theorem FrequencyIndex.mem_doc_ids_containing_iff (G : FrequencyIndex)
    (d : DocumentId) (t : Token) :
    d ∈ G.doc_ids_containing t ↔ (G.inverted_index.postingFreq d t).isSome := by
  unfold FrequencyIndex.doc_ids_containing FrequencyInvertedIndex.postingFreq
  cases hl : G.inverted_index.inner.lookup t with
  | none => simp
  | some pl =>
      simp only [Option.some_bind]
      unfold FrequencyPostingsList.doc_ids
      rw [Finmap.mem_keys]
      exact Finmap.lookup_isSome.symm

theorem FrequencyInvertedIndex.mem_of_postingFreq_isSome
    (inv : FrequencyInvertedIndex) (d : DocumentId) (t : Token)
    (h : (inv.postingFreq d t).isSome) : t ∈ inv.inner := by
  unfold FrequencyInvertedIndex.postingFreq at h
  cases hl : inv.inner.lookup t with
  | none =>
      rw [hl] at h
      simp at h
  | some pl => exact Finmap.mem_of_lookup_eq_some hl

theorem AList.lookup_eq_some_of_mem_entries
    (s : AList fun _ : Token => ℕ) (e : Sigma fun _ : Token => ℕ)
    (h : e ∈ s.entries) : s.lookup e.1 = some e.2 := by
  have hmem : Sigma.mk e.1 e.2 ∈ s.entries := by
    rw [Sigma.eta]
    exact h
  have hd := List.mem_dlookup s.nodupKeys hmem
  exact Option.mem_def.mp hd

theorem FrequencyIndex.n_terms_eq_sum_of_postingFreq (G : FrequencyIndex)
    (A : DocumentFrequencyIndex)
    (hpf : ∀ t, G.inverted_index.postingFreq A.id t = A.index.lookup t)
    (hcounter : G.doc_terms_counter.inner.lookup A.id = some A.n_terms)
    (hsum : A.n_terms = A.sumCounts) :
    G.n_terms A.id
      = ∑ t ∈ G.inverted_index.inner.keys.filter
          (fun t => A.id ∈ G.doc_ids_containing t),
        (G.term_frequency A.id t).getD 0 := by
  have hlhs : G.n_terms A.id = A.n_terms := by
    unfold FrequencyIndex.n_terms DocumentTermsCounter.n_terms
      DocumentTermsCounter.get_doc_terms
    rw [hcounter]
    rfl
  have hset : G.inverted_index.inner.keys.filter
      (fun t => A.id ∈ G.doc_ids_containing t) = A.index.keys.toFinset := by
    apply Finset.ext
    intro t
    rw [Finset.mem_filter, List.mem_toFinset]
    constructor
    · rintro ⟨-, hmem⟩
      rw [FrequencyIndex.mem_doc_ids_containing_iff, hpf t] at hmem
      rw [← AList.mem_keys]
      exact AList.lookup_isSome.mp hmem
    · intro ht
      have hl : (A.index.lookup t).isSome :=
        AList.lookup_isSome.mpr (AList.mem_keys.mpr ht)
      have hpft : (G.inverted_index.postingFreq A.id t).isSome := by
        rw [hpf t]
        exact hl
      refine ⟨?_, ?_⟩
      · rw [Finmap.mem_keys]
        exact FrequencyInvertedIndex.mem_of_postingFreq_isSome _ _ _ hpft
      · rw [FrequencyIndex.mem_doc_ids_containing_iff]
        exact hpft
  rw [hset, hlhs]
  have hcong : ∀ t ∈ A.index.keys.toFinset,
      (G.term_frequency A.id t).getD 0 = (A.index.lookup t).getD 0 := by
    intro t _
    rw [FrequencyIndex.term_frequency_eq_postingFreq, hpf t]
  rw [Finset.sum_congr rfl hcong]
  rw [List.sum_toFinset _ (AList.keys_nodup A.index)]
  have hkeys : A.index.keys.map (fun t => (A.index.lookup t).getD 0)
      = A.index.entries.map fun e => e.2 := by
    show (A.index.entries.map Sigma.fst).map (fun t => (A.index.lookup t).getD 0)
      = A.index.entries.map fun e => e.2
    rw [List.map_map]
    apply List.map_congr_left
    intro e he
    show (A.index.lookup e.1).getD 0 = e.2
    rw [AList.lookup_eq_some_of_mem_entries A.index e he]
    rfl
  rw [hkeys]
  exact hsum

/-- C4: for an index built by folding per-document frequency indices with
pairwise-distinct document ids, the recorded total n_terms of a folded
document A equals the sum, over the tokens t whose postings contain A's
id, of term_frequency for A at t. -/
theorem n_terms_eq_sum_term_frequency (l₁ l₂ : List DocumentFrequencyIndex)
    (A : DocumentFrequencyIndex) (ts : List Token)
    (hA : A = DocumentFrequencyIndex.ofTokens A.id ts)
    (hnd : ((l₁ ++ A :: l₂).map DocumentFrequencyIndex.id).Nodup)
    (F : FrequencyIndex)
    (hF : F = (l₁ ++ A :: l₂).foldl FrequencyIndex.index FrequencyIndex.new) :
    F.n_terms A.id
      = ∑ t ∈ F.inverted_index.inner.keys.filter
          (fun t => A.id ∈ F.doc_ids_containing t),
        (F.term_frequency A.id t).getD 0 := by
  subst hF
  rw [List.map_append, List.map_cons] at hnd
  obtain ⟨hn1, hn2, hdisj⟩ := List.nodup_append.mp hnd
  rw [List.nodup_cons] at hn2
  obtain ⟨hA2, hn3⟩ := hn2
  have h1 : ∀ B ∈ l₁, A.id ≠ B.id := by
    intro B hB heq
    exact hdisj (List.mem_map_of_mem _ hB)
      (by rw [← heq]; exact List.mem_cons_self _ _)
  have h2 : ∀ B ∈ l₂, A.id ≠ B.id := by
    intro B hB heq
    exact hA2 (by rw [heq]; exact List.mem_map_of_mem _ hB)
  have hpf : ∀ t, ((l₁ ++ A :: l₂).foldl FrequencyIndex.index
      FrequencyIndex.new).inverted_index.postingFreq A.id t
        = A.index.lookup t := by
    intro t
    rw [List.foldl_append, List.foldl_cons]
    rw [FrequencyIndex.postingFreq_foldl_docs_ne A.id t l₂ _ h2]
    have hbefore : ∀ t2, (l₁.foldl FrequencyIndex.index
        FrequencyIndex.new).inverted_index.postingFreq A.id t2 = none := by
      intro t2
      rw [FrequencyIndex.postingFreq_foldl_docs_ne A.id t2 l₁ _ h1]
      rfl
    exact FrequencyInvertedIndex.postingFreq_index_self A _ hbefore t
  have hcounter : ((l₁ ++ A :: l₂).foldl FrequencyIndex.index
      FrequencyIndex.new).doc_terms_counter.inner.lookup A.id
        = some A.n_terms := by
    rw [List.foldl_append, List.foldl_cons]
    rw [FrequencyIndex.counter_foldl_ne A.id l₂ _ h2]
    exact Finmap.lookup_insert _
  have hsum : A.n_terms = A.sumCounts := by
    have h := DocumentFrequencyIndex.n_terms_eq_sumCounts A.id ts
    rw [← hA] at h
    exact h
  exact FrequencyIndex.n_terms_eq_sum_of_postingFreq _ A hpf hcounter hsum

/-- Witness for C4 on the reference index: document 0 has five terms, and
the per-token frequencies recorded for it sum to five. -/
theorem n_terms_eq_sum_term_frequency_witness :
    exampleIndex.n_terms 0 = 5 ∧
      (∑ t ∈ exampleIndex.inverted_index.inner.keys.filter
          (fun t => 0 ∈ exampleIndex.doc_ids_containing t),
        (exampleIndex.term_frequency 0 t).getD 0) = 5 ∧
      exampleIndex.n_terms 0
        = ∑ t ∈ exampleIndex.inverted_index.inner.keys.filter
            (fun t => 0 ∈ exampleIndex.doc_ids_containing t),
          (exampleIndex.term_frequency 0 t).getD 0 :=
  ⟨by decide, by decide,
    n_terms_eq_sum_term_frequency []
      [DocumentFrequencyIndex.ofTokens 1 [1, 2, 5]]
      (DocumentFrequencyIndex.ofTokens 0 [1, 2, 3, 1, 4]) [1, 2, 3, 1, 4]
      rfl (by decide) exampleIndex rfl⟩
